import Mathlib

set_option maxHeartbeats 1000000

namespace Valynx

/-! Shallow embedding of the valynx core (src/valynx/index.ts): JS values,
the built-in lenses, the (value, update) core of a `ValueLink`, the shape
dispatch of `item` / `items` / `find` / `prop` / `props`, and the identity
cache of `valueLinkCreator`. -/

/-- A JavaScript runtime value as the repository manipulates it: `undefined`,
`null`, booleans, numbers (only integral numbers occur in the repository, so
they are modelled as integers), strings, arrays, and plain objects modelled
as insertion-ordered association lists of string keys. -/
inductive JSVal : Type where
  | undefined : JSVal
  | null : JSVal
  | bool : Bool → JSVal
  | num : Int → JSVal
  | str : String → JSVal
  | arr : List JSVal → JSVal
  | obj : List (String × JSVal) → JSVal

/-- First binding of a key in an object's field list (JS property read). -/
def lookupF : List (String × JSVal) → String → Option JSVal
  | [], _ => none
  | (k, v) :: fs, j => if k = j then some v else lookupF fs j

/-- `record[key]`: `undefined` when the key is absent. -/
def getF (fs : List (String × JSVal)) (k : String) : JSVal :=
  (lookupF fs k).getD .undefined

/-- Whether the object has the key as an own property. -/
def hasF (fs : List (String × JSVal)) (k : String) : Bool :=
  (lookupF fs k).isSome

/-- Spread-update `{...fs, [k]: v}`: when the key is already present JS keeps
its original insertion position and replaces the value in place, otherwise
the new binding is appended at the end. -/
def setF (fs : List (String × JSVal)) (k : String) (v : JSVal) : List (String × JSVal) :=
  if hasF fs k then fs.map (fun p => if p.1 = k then (k, v) else p) else fs ++ [(k, v)]

/-- Rest-destructuring `{[k]: _, ...rest}`: the object without the key. -/
def removeF (fs : List (String × JSVal)) (k : String) : List (String × JSVal) :=
  fs.filter (fun p => p.1 ≠ k)

/-- Object spread `{...a, ...b}`: each binding of `b` written onto `a` in
order. -/
def spreadF (a b : List (String × JSVal)) : List (String × JSVal) :=
  b.foldl (fun acc p => setF acc p.1 p.2) a

/-- Own enumerable fields seen by object spread: objects contribute their
bindings; `null`, `undefined`, numbers and booleans spread to nothing.
(Spreading a string would produce index keys; no code path of the claims
spreads a string.) -/
def fieldsOf : JSVal → List (String × JSVal)
  | .obj fs => fs
  | _ => []

/-- `value?.[key]`: a field read that yields `undefined` on a nullish base
and on primitives. (String-indexed reads on arrays are not exercised by any
claim and are not modelled.) -/
def jsGet (v : JSVal) (k : String) : JSVal :=
  match v with
  | .obj fs => getF fs k
  | _ => .undefined

/-- `arr[idx]`: out-of-range reads give `undefined`. -/
def getIdx (xs : List JSVal) (idx : Nat) : JSVal :=
  (xs[idx]?).getD .undefined

/-- Whether the value is an array (`Array.isArray`). -/
def JSVal.isArr : JSVal → Bool
  | .arr _ => true
  | _ => false

/-- Whether the value is a non-null object in the sense of the `props`
shape test (`typeof value === "object" && value !== null`), restricted to
plain objects; the array branch is kept separate by `JSVal.isArr`. -/
def JSVal.isObj : JSVal → Bool
  | .obj _ => true
  | _ => false

/-- A lens, the source's `Lens<Base, Child>` pair: a getter, and a put that
rewrites the base by applying an updater to the child. -/
structure Lens (β χ : Type) : Type where
  get : β → χ
  put : β → (χ → χ) → β

/-- The (value, update) core of a `ValueLink`. The updater is modelled as a
state transformer on the root state `ρ`: invoking the link's updater with an
update-fn turns the current root state into the new root state. -/
structure Link (ρ τ : Type) : Type where
  value : τ
  update : (τ → τ) → ρ → ρ

/-- `apply(lens)` of `createValueLink`: a link whose value is
`lens[0](value)` and whose updater is `(fn) => update((base) => lens[1](base, fn))`. -/
def Link.apply {ρ τ χ : Type} (l : Link ρ τ) (lens : Lens τ χ) : Link ρ χ :=
  { value := lens.get l.value
    update := fun fn => l.update (fun base => lens.put base fn) }

/-- `set(value) = update((_) => value)`. -/
def Link.set {ρ τ : Type} (l : Link ρ τ) (v : τ) : ρ → ρ :=
  l.update (fun _ => v)

/-- The single composite lens described by the spec for sequential `apply`:
its get is the composition of the two getters and its put threads the second
lens's put inside the first lens's put. -/
def lensComp {τ χ δ : Type} (A : Lens τ χ) (B : Lens χ δ) : Lens τ δ :=
  { get := fun base => B.get (A.get base)
    put := fun base fn => A.put base (fun c => B.put c fn) }

/-- `arrayItem(idx)` at JS values: get indexes into the array, put is
`[...arr.slice(0, idx), updater(arr[idx]), ...arr.slice(idx + 1)]`.
The non-array branches are unreachable in the repository (`item` and
`items` apply this lens only behind `Array.isArray`, and a write reaches the
put with the same array-shaped base); a non-array base is passed through. -/
def arrayItem (idx : Nat) : Lens JSVal JSVal :=
  { get := fun v => match v with
      | .arr xs => getIdx xs idx
      | _ => .undefined
    put := fun v fn => match v with
      | .arr xs => .arr (xs.take idx ++ [fn (getIdx xs idx)] ++ xs.drop (idx + 1))
      | w => w }

/-- `recordProp(key)`: get is `record?.[key]`; put is
`{...(record ?? {}), [key]: updater(record?.[key])}`. -/
def recordProp (k : String) : Lens JSVal JSVal :=
  { get := fun v => jsGet v k
    put := fun v fn => .obj (setF (fieldsOf v) k (fn (jsGet v k))) }

/-- `omitProp(key)`: get drops the key by rest-destructuring; put re-attaches
the original value of the key onto the updated remainder,
`{...updater(metric), [key]: keyVal}`. -/
def omitProp (k : String) : Lens JSVal JSVal :=
  { get := fun v => .obj (removeF (fieldsOf v) k)
    put := fun v fn =>
      .obj (setF (fieldsOf (fn (.obj (removeF (fieldsOf v) k)))) k (jsGet v k)) }

/-- `onChange(handler)`: get is the identity; put computes the prospective
new value with the updater and passes `(newValue, oldValue)` through the
handler, writing the handler's result. -/
def onChange (handler : JSVal → JSVal → JSVal) : Lens JSVal JSVal :=
  { get := fun v => v
    put := fun v fn => handler (fn v) v }

/-- The `partial` lens: get is the identity; put shallow-merges the
updater's result onto the prior value, `{...value, ...updater(value)}`. -/
def partLens : Lens JSVal JSVal :=
  { get := fun v => v
    put := fun v fn => .obj (spreadF (fieldsOf v) (fieldsOf (fn v))) }

/-- `emptyValueLink = createValueLink(undefined, () => {})`: the module-level
inert link; its updater ignores the update-fn and leaves the root state
untouched. -/
def emptyValueLink {ρ : Type} : Link ρ JSVal :=
  { value := .undefined, update := fun _ s => s }

/-- `item(idx)`: `Array.isArray(value) ? apply(arrayItem(idx)) : emptyValueLink`.
The result lives in the nullable universe (`none` models JS `null`) so that
it composes with `find`; `item` itself never returns `none`. -/
def item {ρ : Type} (l : Link ρ JSVal) (idx : Nat) : Option (Link ρ JSVal) :=
  match l.value with
  | .arr _ => some (l.apply (arrayItem idx))
  | _ => some emptyValueLink

/-- `items()`: for an array, one link per index in order,
`value.map((_, idx) => apply(arrayItem(idx)))`; the empty list otherwise. -/
def items {ρ : Type} (l : Link ρ JSVal) : List (Link ρ JSVal) :=
  match l.value with
  | .arr xs => (List.range xs.length).map (fun idx => l.apply (arrayItem idx))
  | _ => []

/-- `find(predicate)`: `null` for a non-array; otherwise `findIndex` and,
when a match exists, the link for that index via `item(idx)`, else `null`. -/
def find {ρ : Type} (l : Link ρ JSVal) (p : JSVal → Bool) : Option (Link ρ JSVal) :=
  match l.value with
  | .arr xs => if xs.findIdx p < xs.length then item l (xs.findIdx p) else none
  | _ => none

/-- `prop(name) = apply(recordProp(name))`; the source applies the lens with
no shape guard. -/
def prop {ρ : Type} (l : Link ρ JSVal) (k : String) : Link ρ JSVal :=
  l.apply (recordProp k)

/-- The keys `props()` defaults to: `Object.keys(value)` for a plain object,
index strings for an array, nothing for primitives and `null` (the source
then returns `{}`). -/
def propsKeys {ρ : Type} (l : Link ρ JSVal) : List String :=
  match l.value with
  | .obj fs => fs.map Prod.fst
  | .arr xs => (List.range xs.length).map (fun i => toString i)
  | _ => []

/-- `props(keys)` with an explicit key subset: one `apply(recordProp(name))`
link per requested key. -/
def propsWith {ρ : Type} (l : Link ρ JSVal) (keys : List String) :
    List (String × Link ρ JSVal) :=
  keys.map (fun k => (k, l.apply (recordProp k)))

/-- `props()` with the keys defaulted from the value's shape. -/
def props {ρ : Type} (l : Link ρ JSVal) : List (String × Link ρ JSVal) :=
  propsWith l (propsKeys l)

/-- `createFromReactState([value, updater]) = createValueLink(value, updater)`:
the pair's second component is an `Updater` (a function taking an update-fn,
line 27 of the source) and it is installed as the root link's updater
unchanged. -/
def createFromReactState {ρ : Type} (p : JSVal × ((JSVal → JSVal) → ρ → ρ)) :
    Link ρ JSVal :=
  { value := p.1, update := p.2 }

/-- A root link over the test harness's state source (`createStateSource`):
the root state is the current JS value and the root updater replaces it by
the update-fn's result. -/
def mkRoot (v : JSVal) : Link JSVal JSVal :=
  { value := v, update := fun f s => f s }

/-- Lookup-extensional equality of two objects' field lists: the same own
keys (a key present with value `undefined` is distinct from an absent key)
with structurally equal values. JS objects never carry duplicate keys and
none of the lens puts reorder nested values, so this captures the value
equality of `assert.deepStrictEqual` on records while ignoring the
top-level key order that object spread shuffles. -/
def objEq (a b : List (String × JSVal)) : Prop :=
  ∀ k, lookupF a k = lookupF b k

/-- Value equality of two JS values at top level: objects are compared
lookup-extensionally, everything else structurally. -/
def jsEqTop (x y : JSVal) : Prop :=
  match x, y with
  | .obj a, .obj b => objEq a b
  | x, y => x = y

/-! Lemmas about the object field operations. -/

theorem lookupF_append (a b : List (String × JSVal)) (j : String) :
    lookupF (a ++ b) j = (lookupF a j).or (lookupF b j) := by
  induction a with
  | nil => simp [lookupF]
  | cons p a ih =>
    obtain ⟨k, v⟩ := p
    by_cases h : k = j <;> simp [lookupF, h, ih]

theorem lookupF_mapset (fs : List (String × JSVal)) (k j : String) (v : JSVal) :
    lookupF (fs.map (fun p => if p.1 = k then (k, v) else p)) j =
      if j = k then (lookupF fs k).map (fun _ => v) else lookupF fs j := by
  induction fs with
  | nil => simp [lookupF]
  | cons p fs ih =>
    obtain ⟨k', v'⟩ := p
    rw [List.map_cons]
    by_cases hk : k' = k
    · subst hk
      have hhead : (if ((k', v') : String × JSVal).1 = k' then (k', v) else (k', v')) = (k', v) := by
        simp
      rw [hhead]
      by_cases hj : k' = j
      · subst hj
        simp [lookupF]
      · simp [lookupF, hj, ih, Ne.symm hj]
    · have hhead : (if ((k', v') : String × JSVal).1 = k then (k, v) else (k', v')) = (k', v') := by
        simp [hk]
      rw [hhead]
      by_cases hj : k' = j
      · subst hj
        have hjk : k' ≠ k := hk
        simp [lookupF, Ne.symm hjk, hjk]
      · simp [lookupF, hj, hk, ih]

theorem hasF_iff (fs : List (String × JSVal)) (k : String) :
    hasF fs k = true ↔ ∃ v, lookupF fs k = some v := by
  simp [hasF, Option.isSome_iff_exists]

theorem lookupF_setF (fs : List (String × JSVal)) (k j : String) (v : JSVal) :
    lookupF (setF fs k v) j = if j = k then some v else lookupF fs j := by
  unfold setF
  by_cases h : hasF fs k
  · obtain ⟨w, hw⟩ := (hasF_iff fs k).1 h
    simp [h, lookupF_mapset, hw]
  · have hn : lookupF fs k = none := by
      cases hl : lookupF fs k with
      | none => rfl
      | some w => exact absurd ((hasF_iff fs k).2 ⟨w, hl⟩) h
    simp only [h, if_false, Bool.false_eq_true, lookupF_append]
    by_cases hj : j = k
    · subst hj
      simp [hn, lookupF]
    · cases hl : lookupF fs j <;> simp [lookupF, hj, Ne.symm hj]

theorem lookupF_removeF (fs : List (String × JSVal)) (k j : String) :
    lookupF (removeF fs k) j = if j = k then none else lookupF fs j := by
  induction fs with
  | nil => simp [removeF, lookupF]
  | cons p fs ih =>
    obtain ⟨k', v'⟩ := p
    by_cases hk : k' = k
    · subst hk
      have hstep : removeF ((k', v') :: fs) k' = removeF fs k' := by
        simp [removeF, List.filter_cons]
      rw [hstep, ih]
      by_cases hj : j = k'
      · simp [hj]
      · simp [lookupF, hj, show ¬ k' = j from fun h => hj h.symm]
    · have hstep : removeF ((k', v') :: fs) k = (k', v') :: removeF fs k := by
        simp [removeF, List.filter_cons, hk]
      rw [hstep]
      by_cases hj : k' = j
      · subst hj
        simp [lookupF, show ¬ k' = k from hk]
      · simp [lookupF, hj, ih]

theorem lookupF_eq_none_of_not_mem (fs : List (String × JSVal)) (k : String)
    (h : k ∉ fs.map Prod.fst) : lookupF fs k = none := by
  induction fs with
  | nil => rfl
  | cons p fs ih =>
    obtain ⟨k', v'⟩ := p
    simp only [List.map_cons, List.mem_cons] at h
    push_neg at h
    simp [lookupF, Ne.symm h.1, ih h.2]

theorem removeF_eq_self (fs : List (String × JSVal)) (k : String)
    (h : lookupF fs k = none) : removeF fs k = fs := by
  induction fs with
  | nil => rfl
  | cons p fs ih =>
    obtain ⟨k', v'⟩ := p
    by_cases hk : k' = k
    · subst hk
      simp [lookupF] at h
    · simp only [lookupF, hk, if_false] at h
      have h' : lookupF fs k = none := by
        simpa [show ¬ k' = k from hk] using h
      have hstep : removeF ((k', v') :: fs) k = (k', v') :: removeF fs k := by
        simp [removeF, List.filter_cons, hk]
      rw [hstep, ih h']

theorem removeF_mapset (fs : List (String × JSVal)) (k : String) (v : JSVal) :
    removeF (fs.map (fun p => if p.1 = k then (k, v) else p)) k = removeF fs k := by
  induction fs with
  | nil => rfl
  | cons p fs ih =>
    obtain ⟨k', v'⟩ := p
    rw [List.map_cons]
    by_cases hk : k' = k
    · subst hk
      have hhead : (if ((k', v') : String × JSVal).1 = k' then (k', v) else (k', v')) = (k', v) := by
        simp
      rw [hhead]
      have h1 : removeF ((k', v) :: fs.map (fun p => if p.1 = k' then (k', v) else p)) k' =
          removeF (fs.map (fun p => if p.1 = k' then (k', v) else p)) k' := by
        simp [removeF, List.filter_cons]
      have h2 : removeF ((k', v') :: fs) k' = removeF fs k' := by
        simp [removeF, List.filter_cons]
      rw [h1, h2, ih]
    · have hhead : (if ((k', v') : String × JSVal).1 = k then (k, v) else (k', v')) = (k', v') := by
        simp [hk]
      rw [hhead]
      have h1 : removeF ((k', v') :: fs.map (fun p => if p.1 = k then (k, v) else p)) k =
          (k', v') :: removeF (fs.map (fun p => if p.1 = k then (k, v) else p)) k := by
        simp [removeF, List.filter_cons, hk]
      have h2 : removeF ((k', v') :: fs) k = (k', v') :: removeF fs k := by
        simp [removeF, List.filter_cons, hk]
      rw [h1, h2, ih]

theorem removeF_setF (fs : List (String × JSVal)) (k : String) (v : JSVal) :
    removeF (setF fs k v) k = removeF fs k := by
  unfold setF
  by_cases h : hasF fs k
  · simp only [h, if_true]
    exact removeF_mapset fs k v
  · simp only [h, Bool.false_eq_true, if_false]
    simp [removeF, List.filter_append]

theorem getF_setF_self (fs : List (String × JSVal)) (k : String) (v : JSVal) :
    getF (setF fs k v) k = v := by
  simp [getF, lookupF_setF]

theorem mapFst_setF (fs : List (String × JSVal)) (k : String) (v : JSVal)
    (h : hasF fs k = true) : (setF fs k v).map Prod.fst = fs.map Prod.fst := by
  unfold setF
  simp only [h, if_true, List.map_map]
  apply List.map_congr_left
  intro p _
  by_cases hp : p.1 = k <;> simp [hp]

theorem lookupF_spreadF (fs us : List (String × JSVal)) (j : String)
    (h : (us.map Prod.fst).Nodup) :
    lookupF (spreadF fs us) j = (lookupF us j).or (lookupF fs j) := by
  induction us generalizing fs with
  | nil => simp [spreadF, lookupF]
  | cons p us ih =>
    obtain ⟨k, v⟩ := p
    simp only [List.map_cons, List.nodup_cons] at h
    have hstep : spreadF fs ((k, v) :: us) = spreadF (setF fs k v) us := rfl
    rw [hstep, ih _ h.2, lookupF_setF]
    by_cases hj : j = k
    · subst hj
      rw [lookupF_eq_none_of_not_mem us j h.1]
      simp [lookupF]
    · simp [lookupF, Ne.symm hj, hj]

/-! Lemmas about the splice `[...arr.slice(0, idx), a, ...arr.slice(idx + 1)]`. -/

theorem putList_length (xs : List JSVal) (idx : Nat) (a : JSVal) (h : idx < xs.length) :
    (xs.take idx ++ [a] ++ xs.drop (idx + 1)).length = xs.length := by
  simp only [List.length_append, List.length_take, List.length_drop, List.length_cons,
    List.length_nil]
  omega

theorem putList_self (xs : List JSVal) (idx : Nat) (a : JSVal) (h : idx < xs.length) :
    (xs.take idx ++ [a] ++ xs.drop (idx + 1))[idx]? = some a := by
  have hlen : (xs.take idx).length = idx := by
    simp [Nat.le_of_lt h]
  rw [List.append_assoc, List.getElem?_append_right (by omega), hlen]
  simp

theorem putList_other (xs : List JSVal) (idx : Nat) (a : JSVal) (h : idx < xs.length)
    (j : Nat) (hj : j ≠ idx) :
    (xs.take idx ++ [a] ++ xs.drop (idx + 1))[j]? = xs[j]? := by
  have hlen : (xs.take idx).length = idx := by
    simp [Nat.le_of_lt h]
  rcases Nat.lt_or_ge j idx with hlt | hge
  · rw [List.append_assoc, List.getElem?_append_left (by omega), List.getElem?_take]
    simp [hlt]
  · have hgt : idx < j := by omega
    have hlen2 : (xs.take idx ++ [a]).length = idx + 1 := by
      simp [hlen]
    rw [List.getElem?_append_right (by simp [hlen2]; omega), hlen2, List.getElem?_drop]
    congr 1
    omega

/-! The claims. -/

/-- C3: lens application composes sequentially — for every link (that is,
for every value and root updater) and all lenses A and B, applying A and
then B yields a link with the same value and the same root writes as
applying once the single composite lens `lensComp A B` whose get is B's get
after A's get and whose put threads B's put inside A's put. -/
theorem c3_apply_composes {ρ τ χ δ : Type} (l : Link ρ τ) (A : Lens τ χ) (B : Lens χ δ) :
    ((l.apply A).apply B).value = (l.apply (lensComp A B)).value ∧
    ∀ fn s, ((l.apply A).apply B).update fn s = (l.apply (lensComp A B)).update fn s :=
  ⟨rfl, fun _ _ => rfl⟩

/-- C9 counterexample: the claim says a write of `fn` through the root link
built by `createFromReactState` calls the external function with the value
`fn(v)` computed from the captured value `v`, so the new root would be
`fn(v)`. The source instead installs the pair's second component — an
`Updater` — unchanged; with the live updater `(f, s) ↦ f s`, captured value
`1` and current state `5`, the write of the identity produces `5`, not
`fn(v) = 1`. -/
theorem c9_counterexample :
    (createFromReactState ((.num 1 : JSVal), fun f s => f s)).update (fun x => x) (.num 5) ≠
      JSVal.num 1 := by
  intro h
  simp only [createFromReactState] at h
  exact absurd (JSVal.num.inj h) (by decide)

/-- C9 amended: `createFromReactState` destructures the `[value, updater]`
pair (the source's `ReactState` carries an `Updater`, not a plain setter)
and builds the root link as `createValueLink(value, updater)`: the root
link's value is the pair's first component and a write of `fn` invokes the
external updater exactly once, with `fn` itself. -/
theorem c9_amended {ρ : Type} (v : JSVal) (u : (JSVal → JSVal) → ρ → ρ) :
    (createFromReactState (v, u)).value = v ∧
    ∀ fn s, (createFromReactState (v, u)).update fn s = u fn s :=
  ⟨rfl, fun _ _ => rfl⟩

/-- C10: on a link over a non-sequence value, every `item(idx)` call returns
the one shared inert `emptyValueLink`, whose value is `undefined` and whose
`update` and `set` ignore the update and leave the root state unchanged —
no root updater is ever invoked through it. -/
theorem c10_item_inert {ρ : Type} (l : Link ρ JSVal) (idx : Nat)
    (hv : l.value.isArr = false) :
    item l idx = some (emptyValueLink : Link ρ JSVal) ∧
    (emptyValueLink : Link ρ JSVal).value = .undefined ∧
    (∀ fn s, (emptyValueLink : Link ρ JSVal).update fn s = s) ∧
    (∀ x s, (emptyValueLink : Link ρ JSVal).set x s = s) := by
  refine ⟨?_, rfl, fun _ _ => rfl, fun _ _ => rfl⟩
  unfold item
  cases hl : l.value
  case arr xs =>
    rw [hl] at hv
    simp [JSVal.isArr] at hv
  all_goals rfl

/-- C10 witness: the inert link at the concrete non-sequence value 0. -/
theorem c10_witness :
    (mkRoot (.num 0)).value.isArr = false ∧
    item (mkRoot (.num 0)) 3 = some (emptyValueLink : Link JSVal JSVal) :=
  ⟨rfl, (c10_item_inert (mkRoot (.num 0)) 3 rfl).1⟩

/-- C8 counterexample: on the non-sequence value 5, `item(0)` does not
return `null` — the source returns the inert `emptyValueLink` — refuting
the claim that `item` degrades to `null` on non-sequences. -/
theorem c8_counterexample : item (mkRoot (.num 5)) 0 ≠ none := by
  simp [item, mkRoot]

/-- C8 amended: on a non-sequence value no sequence method raises:
`items()` is the empty list and `find` is `null`, while `item(idx)` returns
the inert shared `emptyValueLink` (not `null`); and `props()` on a
non-object (a primitive or `null`) degrades to the empty record. -/
theorem c8_shape_mismatch_amended (v : JSVal) (idx : Nat) (p : JSVal → Bool)
    (hv : v.isArr = false) :
    items (mkRoot v) = [] ∧
    find (mkRoot v) p = none ∧
    item (mkRoot v) idx = some (emptyValueLink : Link JSVal JSVal) ∧
    (v.isObj = false → props (mkRoot v) = []) := by
  cases v <;>
    simp_all [items, find, item, props, propsWith, propsKeys, mkRoot, JSVal.isArr, JSVal.isObj]

/-- C8 witness: the degradation at the concrete non-sequence value 5. -/
theorem c8_witness :
    (JSVal.num 5).isArr = false ∧
    (items (mkRoot (.num 5)) = [] ∧
      find (mkRoot (.num 5)) (fun _ => true) = none ∧
      item (mkRoot (.num 5)) 0 = some (emptyValueLink : Link JSVal JSVal) ∧
      ((JSVal.num 5).isObj = false → props (mkRoot (.num 5)) = [])) :=
  ⟨rfl, c8_shape_mismatch_amended (.num 5) 0 (fun _ => true) rfl⟩

/-- C6: writing a field through `prop` is a non-destructive frame update:
the link still holds the original root record, the new root delivered to
the updater is the old record with the field set (in place via spread), the
written field reads back as the written value, every other field is
unchanged, and when the field was already present the key list (and hence
the insertion order) of the record is preserved. -/
theorem c6_prop_set_frame (fs : List (String × JSVal)) (k : String) (x : JSVal) :
    (mkRoot (.obj fs)).value = .obj fs ∧
    (prop (mkRoot (.obj fs)) k).set x (.obj fs) = .obj (setF fs k x) ∧
    getF (setF fs k x) k = x ∧
    (∀ j, j ≠ k → lookupF (setF fs k x) j = lookupF fs j) ∧
    (hasF fs k = true → (setF fs k x).map Prod.fst = fs.map Prod.fst) := by
  refine ⟨rfl, rfl, getF_setF_self fs k x, ?_, mapFst_setF fs k x⟩
  intro j hj
  rw [lookupF_setF]
  simp [hj]

/-- C6 witness: setting "name" to "X" on the record {name: "a", id: 1}. -/
theorem c6_witness :
    hasF [("name", JSVal.str "a"), ("id", JSVal.num 1)] "name" = true ∧
    (prop (mkRoot (.obj [("name", JSVal.str "a"), ("id", JSVal.num 1)])) "name").set
        (.str "X") (.obj [("name", JSVal.str "a"), ("id", JSVal.num 1)]) =
      .obj (setF [("name", JSVal.str "a"), ("id", JSVal.num 1)] "name" (.str "X")) ∧
    (setF [("name", JSVal.str "a"), ("id", JSVal.num 1)] "name" (.str "X")).map Prod.fst =
      [("name", JSVal.str "a"), ("id", JSVal.num 1)].map Prod.fst := by
  refine ⟨rfl, ?_, ?_⟩
  · exact (c6_prop_set_frame [("name", JSVal.str "a"), ("id", JSVal.num 1)] "name" (.str "X")).2.1
  · exact (c6_prop_set_frame [("name", JSVal.str "a"), ("id", JSVal.num 1)] "name"
      (.str "X")).2.2.2.2 rfl

/-- C7: for a record base containing the key, `omitProp(key)`'s get is the
record without the key (the key reads as absent there and every other field
is unchanged), and its put re-attaches the original value of the key to the
updater's result whatever the updater did to the unrelated fields: reading
the key through the result always yields the base's original value. -/
theorem c7_omitProp (fs : List (String × JSVal)) (k : String) (fn : JSVal → JSVal)
    (hk : hasF fs k = true) :
    (omitProp k).get (.obj fs) = .obj (removeF fs k) ∧
    lookupF (removeF fs k) k = none ∧
    (∀ j, j ≠ k → lookupF (removeF fs k) j = lookupF fs j) ∧
    jsGet ((omitProp k).put (.obj fs) fn) k = getF fs k ∧
    (∃ us, (omitProp k).put (.obj fs) fn = .obj us ∧ lookupF us k = lookupF fs k) := by
  obtain ⟨w, hw⟩ := (hasF_iff fs k).1 hk
  refine ⟨rfl, ?_, ?_, ?_, ?_⟩
  · rw [lookupF_removeF]
    simp
  · intro j hj
    rw [lookupF_removeF]
    simp [hj]
  · exact getF_setF_self _ k _
  · refine ⟨setF (fieldsOf (fn (.obj (removeF (fieldsOf (.obj fs)) k)))) k (jsGet (.obj fs) k),
      rfl, ?_⟩
    rw [lookupF_setF]
    simp [jsGet, getF, hw]

/-- C7 witness: omitting "id" from {id: 1, name: "a"} and writing back an
updater that replaces the remainder with fresh unrelated fields keeps the
omitted id intact. -/
theorem c7_witness :
    hasF [("id", JSVal.num 1), ("name", JSVal.str "a")] "id" = true ∧
    jsGet ((omitProp "id").put (.obj [("id", JSVal.num 1), ("name", JSVal.str "a")])
        (fun _ => .obj [("name", JSVal.str "b"), ("extra", JSVal.num 7)])) "id" =
      getF [("id", JSVal.num 1), ("name", JSVal.str "a")] "id" :=
  ⟨rfl, (c7_omitProp [("id", JSVal.num 1), ("name", JSVal.str "a")] "id"
    (fun _ => .obj [("name", JSVal.str "b"), ("extra", JSVal.num 7)]) rfl).2.2.2.1⟩

/-- C4: for an in-bounds index, `arrayItem(idx)`'s get returns the element
at the index and its put returns a new sequence of the same length with the
element at the index replaced by the updater's result and every other
element untouched; `items()` yields one link per element in order, `item`
is the `arrayItem` link for the index, its value is the element, and a
`set` through it splices the new element into the current root sequence. -/
theorem c4_arrayItem_item (xs : List JSVal) (idx : Nat) (fn : JSVal → JSVal) (B : JSVal)
    (h : idx < xs.length) :
    (arrayItem idx).get (.arr xs) = xs[idx] ∧
    (∃ ys, (arrayItem idx).put (.arr xs) fn = .arr ys ∧
      ys.length = xs.length ∧ ys[idx]? = some (fn xs[idx]) ∧
      ∀ j, j ≠ idx → ys[j]? = xs[j]?) ∧
    (items (mkRoot (.arr xs))).length = xs.length ∧
    (∀ i, i < xs.length →
      (items (mkRoot (.arr xs)))[i]? = some ((mkRoot (.arr xs)).apply (arrayItem i))) ∧
    item (mkRoot (.arr xs)) idx = some ((mkRoot (.arr xs)).apply (arrayItem idx)) ∧
    ((mkRoot (.arr xs)).apply (arrayItem idx)).value = xs[idx] ∧
    (∃ ys, ((mkRoot (.arr xs)).apply (arrayItem idx)).set B (.arr xs) = .arr ys ∧
      ys.length = xs.length ∧ ys[idx]? = some B ∧ ∀ j, j ≠ idx → ys[j]? = xs[j]?) := by
  have hget : getIdx xs idx = xs[idx] := by
    simp [getIdx, List.getElem?_eq_getElem h]
  refine ⟨by simp [arrayItem, hget], ?_, ?_, ?_, ?_, ?_, ?_⟩
  · refine ⟨xs.take idx ++ [fn (getIdx xs idx)] ++ xs.drop (idx + 1), rfl,
      putList_length xs idx _ h, ?_, putList_other xs idx _ h⟩
    rw [putList_self xs idx _ h, hget]
  · simp [items, mkRoot]
  · intro i hi
    simp [items, mkRoot, List.getElem?_range hi]
  · simp [item, mkRoot]
  · simp [Link.apply, arrayItem, mkRoot, hget]
  · exact ⟨xs.take idx ++ [B] ++ xs.drop (idx + 1), rfl,
      putList_length xs idx _ h, putList_self xs idx _ h, putList_other xs idx _ h⟩

/-- C4 witness: on the sequence [a, b, c], the link at index 1 has value b
and setting B through it produces [a, B, c]. -/
theorem c4_witness :
    (1 : Nat) < ([JSVal.str "a", JSVal.str "b", JSVal.str "c"] : List JSVal).length ∧
    ((mkRoot (.arr [JSVal.str "a", JSVal.str "b", JSVal.str "c"])).apply (arrayItem 1)).value =
      ([JSVal.str "a", JSVal.str "b", JSVal.str "c"] : List JSVal)[1] ∧
    ((mkRoot (.arr [JSVal.str "a", JSVal.str "b", JSVal.str "c"])).apply (arrayItem 1)).set
        (.str "B") (.arr [JSVal.str "a", JSVal.str "b", JSVal.str "c"]) =
      .arr [JSVal.str "a", JSVal.str "B", JSVal.str "c"] :=
  ⟨by decide,
   (c4_arrayItem_item [JSVal.str "a", JSVal.str "b", JSVal.str "c"] 1 id (.str "B")
     (by decide)).2.2.2.2.2.1,
   rfl⟩

/-- C5: `find(predicate)` on a sequence link scans in order — when a match
exists it returns the link of the element at the first matching index (no
earlier element satisfies the predicate), and a write through that link
replaces exactly that element at its original index inside the current
sequence; when nothing matches it returns `null`. -/
theorem c5_find (xs : List JSVal) (p : JSVal → Bool) (B : JSVal) :
    (∀ h : xs.findIdx p < xs.length,
      find (mkRoot (.arr xs)) p =
        some ((mkRoot (.arr xs)).apply (arrayItem (xs.findIdx p))) ∧
      ((mkRoot (.arr xs)).apply (arrayItem (xs.findIdx p))).value = xs[xs.findIdx p] ∧
      p (xs[xs.findIdx p]) = true ∧
      (∀ j, ∀ hj : j < xs.length, j < xs.findIdx p → p (xs[j]) = false) ∧
      (∃ ys, ((mkRoot (.arr xs)).apply (arrayItem (xs.findIdx p))).set B (.arr xs) = .arr ys ∧
        ys.length = xs.length ∧ ys[xs.findIdx p]? = some B ∧
        ∀ j, j ≠ xs.findIdx p → ys[j]? = xs[j]?)) ∧
    (xs.findIdx p = xs.length → find (mkRoot (.arr xs)) p = none) := by
  constructor
  · intro h
    have hget : getIdx xs (xs.findIdx p) = xs[xs.findIdx p] := by
      simp [getIdx, List.getElem?_eq_getElem h]
    refine ⟨?_, ?_, List.findIdx_getElem, ?_, ?_⟩
    · simp [find, item, mkRoot, h]
    · simp [Link.apply, arrayItem, mkRoot, hget]
    · intro j hj hlt
      exact List.not_of_lt_findIdx hlt
    · exact ⟨xs.take (xs.findIdx p) ++ [B] ++ xs.drop (xs.findIdx p + 1), rfl,
        putList_length xs _ _ h, putList_self xs _ _ h, putList_other xs _ _ h⟩
  · intro h
    simp [find, mkRoot, h]

/-- Concrete data for the C5 witness, the spec's round-trip example. -/
def demoRows : List JSVal :=
  [.obj [("id", .num 1), ("name", .str "Sam")],
   .obj [("id", .num 2), ("name", .str "Ingo")]]

/-- The predicate `row => row.id === 2` of the C5 witness. -/
def demoPred : JSVal → Bool := fun v =>
  match jsGet v "id" with
  | .num 2 => true
  | _ => false

/-- C5 witness: on the spec's example data, `find(row => row.id === 2)`
returns the link at index 1 and setting {id: 2, name: "INGO"} through it
rewrites only that row. -/
theorem c5_witness :
    demoRows.findIdx demoPred < demoRows.length ∧
    find (mkRoot (.arr demoRows)) demoPred =
      some ((mkRoot (.arr demoRows)).apply (arrayItem (demoRows.findIdx demoPred))) ∧
    ((mkRoot (.arr demoRows)).apply (arrayItem 1)).set
        (.obj [("id", .num 2), ("name", .str "INGO")]) (.arr demoRows) =
      .arr [.obj [("id", .num 1), ("name", .str "Sam")],
            .obj [("id", .num 2), ("name", .str "INGO")]] :=
  ⟨by decide,
   ((c5_find demoRows demoPred (.obj [("id", .num 2), ("name", .str "INGO")])).1
     (by decide)).1,
   rfl⟩

theorem objEq_setF_setF (fs : List (String × JSVal)) (k : String) (a b : JSVal) (j : String) :
    lookupF (setF (setF fs k a) k b) j = lookupF (setF fs k b) j := by
  rw [lookupF_setF, lookupF_setF, lookupF_setF]
  split <;> rfl

/-- C1 counterexample: the `partial` lens violates PutGet — on the record
{a: 1, b: 2} with an updater returning the bare partial {a: 3},
`get(put(base, fn))` keeps the untouched field b while `fn(get(base))`
lacks it, so the two sides differ at the key "b"; hence not every built-in
lens satisfies the three lens laws for every base and updater. -/
theorem c1_counterexample :
    ¬ jsEqTop (partLens.get (partLens.put (.obj [("a", .num 1), ("b", .num 2)])
        (fun _ => .obj [("a", .num 3)])))
      ((fun _ => JSVal.obj [("a", JSVal.num 3)])
        (partLens.get (.obj [("a", .num 1), ("b", .num 2)]))) := by
  intro hEq
  have hEq' : ∀ j, lookupF (spreadF [("a", JSVal.num 1), ("b", JSVal.num 2)]
      [("a", JSVal.num 3)]) j = lookupF [("a", JSVal.num 3)] j := hEq
  have hb := hEq' "b"
  have h1 : lookupF (spreadF [("a", JSVal.num 1), ("b", JSVal.num 2)]
      [("a", JSVal.num 3)]) "b" = some (.num 2) := rfl
  have h2 : lookupF [("a", JSVal.num 3)] "b" = none := rfl
  rw [h1, h2] at hb
  simp at hb

/-- C1 amended: the lens laws hold with the preconditions the code forces.
`arrayItem` satisfies GetPut, PutGet and PutPut for in-bounds indices;
`recordProp` satisfies PutGet and PutPut on every record and GetPut when the
key is present; `omitProp` satisfies GetPut when the key is present, and
PutGet/PutPut when the updater keeps its result free of the omitted key;
`onChange` satisfies all three exactly when the handler passes the new value
through; `partial` satisfies GetPut on duplicate-free records, and PutGet
only when the updater returns a record covering the base's keys. -/
theorem c1_lens_laws_amended :
    (∀ (xs : List JSVal) (idx : Nat) (fn fn1 fn2 : JSVal → JSVal), idx < xs.length →
      (arrayItem idx).put (.arr xs) (fun _ => (arrayItem idx).get (.arr xs)) = .arr xs ∧
      (arrayItem idx).get ((arrayItem idx).put (.arr xs) fn) =
        fn ((arrayItem idx).get (.arr xs)) ∧
      (arrayItem idx).put ((arrayItem idx).put (.arr xs) fn1) fn2 =
        (arrayItem idx).put (.arr xs) (fun c => fn2 (fn1 c))) ∧
    (∀ (fs : List (String × JSVal)) (k : String) (fn fn1 fn2 : JSVal → JSVal),
      (hasF fs k = true →
        jsEqTop ((recordProp k).put (.obj fs) (fun _ => (recordProp k).get (.obj fs)))
          (.obj fs)) ∧
      (recordProp k).get ((recordProp k).put (.obj fs) fn) =
        fn ((recordProp k).get (.obj fs)) ∧
      jsEqTop ((recordProp k).put ((recordProp k).put (.obj fs) fn1) fn2)
        ((recordProp k).put (.obj fs) (fun c => fn2 (fn1 c)))) ∧
    (∀ (fs : List (String × JSVal)) (k : String) (fn fn1 fn2 : JSVal → JSVal),
      (hasF fs k = true →
        jsEqTop ((omitProp k).put (.obj fs) (fun _ => (omitProp k).get (.obj fs)))
          (.obj fs)) ∧
      (∀ us, fn (.obj (removeF fs k)) = .obj us → hasF us k = false →
        (omitProp k).get ((omitProp k).put (.obj fs) fn) =
          fn ((omitProp k).get (.obj fs))) ∧
      (∀ us, fn1 (.obj (removeF fs k)) = .obj us → hasF us k = false →
        (omitProp k).put ((omitProp k).put (.obj fs) fn1) fn2 =
          (omitProp k).put (.obj fs) (fun c => fn2 (fn1 c)))) ∧
    (∀ handler : JSVal → JSVal → JSVal, (∀ n o, handler n o = n) →
      ∀ (v : JSVal) (fn fn1 fn2 : JSVal → JSVal),
      (onChange handler).put v (fun _ => (onChange handler).get v) = v ∧
      (onChange handler).get ((onChange handler).put v fn) =
        fn ((onChange handler).get v) ∧
      (onChange handler).put ((onChange handler).put v fn1) fn2 =
        (onChange handler).put v (fun c => fn2 (fn1 c))) ∧
    (∀ (fs : List (String × JSVal)) (fn : JSVal → JSVal),
      ((fs.map Prod.fst).Nodup →
        jsEqTop (partLens.put (.obj fs) (fun _ => partLens.get (.obj fs))) (.obj fs)) ∧
      (∀ us, fn (.obj fs) = .obj us → (us.map Prod.fst).Nodup →
        (∀ j, hasF fs j = true → hasF us j = true) →
        jsEqTop (partLens.put (.obj fs) fn) (fn (partLens.get (.obj fs))))) := by
  refine ⟨?_, ?_, ?_, ?_, ?_⟩
  · -- arrayItem
    intro xs idx fn fn1 fn2 h
    have hget : getIdx xs idx = xs[idx] := by
      simp [getIdx, List.getElem?_eq_getElem h]
    have hlen : (xs.take idx).length = idx := by
      simp [Nat.le_of_lt h]
    refine ⟨?_, ?_, ?_⟩
    · show JSVal.arr (xs.take idx ++ [getIdx xs idx] ++ xs.drop (idx + 1)) = .arr xs
      rw [hget, List.take_concat_get' _ _ h, List.take_append_drop]
    · show ((xs.take idx ++ [fn (getIdx xs idx)] ++ xs.drop (idx + 1))[idx]?).getD .undefined =
        fn (getIdx xs idx)
      rw [putList_self xs idx _ h]
      rfl
    · show JSVal.arr ((xs.take idx ++ [fn1 (getIdx xs idx)] ++ xs.drop (idx + 1)).take idx ++
          [fn2 (getIdx (xs.take idx ++ [fn1 (getIdx xs idx)] ++ xs.drop (idx + 1)) idx)] ++
          (xs.take idx ++ [fn1 (getIdx xs idx)] ++ xs.drop (idx + 1)).drop (idx + 1)) =
        .arr (xs.take idx ++ [fn2 (fn1 (getIdx xs idx))] ++ xs.drop (idx + 1))
      have h1 : (xs.take idx ++ [fn1 (getIdx xs idx)] ++ xs.drop (idx + 1)).take idx =
          xs.take idx := by
        rw [List.append_assoc]
        exact List.take_left' hlen
      have h2 : getIdx (xs.take idx ++ [fn1 (getIdx xs idx)] ++ xs.drop (idx + 1)) idx =
          fn1 (getIdx xs idx) := by
        show ((xs.take idx ++ [fn1 (getIdx xs idx)] ++ xs.drop (idx + 1))[idx]?).getD .undefined =
          fn1 (getIdx xs idx)
        rw [putList_self xs idx _ h]
        rfl
      have h3 : (xs.take idx ++ [fn1 (getIdx xs idx)] ++ xs.drop (idx + 1)).drop (idx + 1) =
          xs.drop (idx + 1) := by
        apply List.drop_left'
        simp [hlen]
      rw [h1, h2, h3]
  · -- recordProp
    intro fs k fn fn1 fn2
    refine ⟨?_, ?_, ?_⟩
    · intro hk
      obtain ⟨w, hw⟩ := (hasF_iff fs k).1 hk
      show ∀ j, lookupF (setF fs k (getF fs k)) j = lookupF fs j
      intro j
      rw [lookupF_setF]
      split
      · next hj => rw [hj, hw]; simp [getF, hw]
      · rfl
    · show getF (setF fs k (fn (getF fs k))) k = fn (getF fs k)
      exact getF_setF_self fs k _
    · show ∀ j, lookupF (setF (setF fs k (fn1 (getF fs k))) k
          (fn2 (getF (setF fs k (fn1 (getF fs k))) k))) j =
        lookupF (setF fs k (fn2 (fn1 (getF fs k)))) j
      intro j
      rw [getF_setF_self]
      exact objEq_setF_setF fs k _ _ j
  · -- omitProp
    intro fs k fn fn1 fn2
    refine ⟨?_, ?_, ?_⟩
    · intro hk
      obtain ⟨w, hw⟩ := (hasF_iff fs k).1 hk
      show ∀ j, lookupF (setF (removeF fs k) k (getF fs k)) j = lookupF fs j
      intro j
      rw [lookupF_setF]
      split
      · next hj => rw [hj]; simp [getF, hw]
      · next hj => rw [lookupF_removeF]; simp [hj]
    · intro us hfn hus
      have hn : lookupF us k = none := by
        cases hl : lookupF us k with
        | none => rfl
        | some w => rw [hasF, hl] at hus; simp at hus
      have hput : (omitProp k).put (.obj fs) fn = .obj (setF us k (getF fs k)) := by
        show JSVal.obj (setF (fieldsOf (fn (.obj (removeF fs k)))) k (getF fs k)) = _
        rw [hfn]
        rfl
      rw [hput]
      show JSVal.obj (removeF (setF us k (getF fs k)) k) = fn (.obj (removeF fs k))
      rw [removeF_setF, removeF_eq_self us k hn, ← hfn]
    · intro us hfn hus
      have hn : lookupF us k = none := by
        cases hl : lookupF us k with
        | none => rfl
        | some w => rw [hasF, hl] at hus; simp at hus
      have hput : (omitProp k).put (.obj fs) fn1 = .obj (setF us k (getF fs k)) := by
        show JSVal.obj (setF (fieldsOf (fn1 (.obj (removeF fs k)))) k (getF fs k)) = _
        rw [hfn]
        rfl
      rw [hput]
      show JSVal.obj (setF (fieldsOf (fn2 (.obj (removeF (setF us k (getF fs k)) k)))) k
          (getF (setF us k (getF fs k)) k)) =
        .obj (setF (fieldsOf (fn2 (fn1 (.obj (removeF fs k))))) k (getF fs k))
      rw [removeF_setF, removeF_eq_self us k hn, getF_setF_self, hfn]
  · -- onChange
    intro handler hh v fn fn1 fn2
    refine ⟨?_, ?_, ?_⟩ <;> simp [onChange, hh]
  · -- partLens
    intro fs fn
    refine ⟨?_, ?_⟩
    · intro hnd
      show ∀ j, lookupF (spreadF fs fs) j = lookupF fs j
      intro j
      rw [lookupF_spreadF fs fs j hnd]
      cases hl : lookupF fs j <;> simp [Option.or, hl]
    · intro us hfn hnd hsub
      have hput : partLens.put (.obj fs) fn = .obj (spreadF fs us) := by
        show JSVal.obj (spreadF fs (fieldsOf (fn (.obj fs)))) = _
        rw [hfn]
        rfl
      rw [hput, show partLens.get (.obj fs) = .obj fs from rfl, hfn]
      show ∀ j, lookupF (spreadF fs us) j = lookupF us j
      intro j
      rw [lookupF_spreadF fs us j hnd]
      cases hl : lookupF us j with
      | some w => simp [Option.or]
      | none =>
        have hfs : lookupF fs j = none := by
          cases hfs : lookupF fs j with
          | none => rfl
          | some w =>
            have := hsub j (by simp [hasF, hfs])
            rw [hasF, hl] at this
            simp at this
        simp [Option.or, hfs]

/-- C1 witness: the amended laws at concrete inputs — the array [1, 2] at
index 0, the record {a: 1} for recordProp and for the `partial` GetPut law,
the record {id: 1, b: 2} with a key-free updater for omitProp, and the
pass-through handler for onChange. -/
theorem c1_witness :
    ((0 : Nat) < ([JSVal.num 1, JSVal.num 2] : List JSVal).length ∧
      (arrayItem 0).put (.arr [JSVal.num 1, JSVal.num 2])
          (fun _ => (arrayItem 0).get (.arr [JSVal.num 1, JSVal.num 2])) =
        .arr [JSVal.num 1, JSVal.num 2]) ∧
    (hasF [("a", JSVal.num 1)] "a" = true ∧
      jsEqTop ((recordProp "a").put (.obj [("a", JSVal.num 1)])
          (fun _ => (recordProp "a").get (.obj [("a", JSVal.num 1)])))
        (.obj [("a", JSVal.num 1)])) ∧
    ((fun _ => JSVal.obj [("b", JSVal.num 5)])
          (JSVal.obj (removeF [("id", JSVal.num 1), ("b", JSVal.num 2)] "id")) =
        .obj [("b", JSVal.num 5)] ∧
      hasF [("b", JSVal.num 5)] "id" = false ∧
      (omitProp "id").get ((omitProp "id").put (.obj [("id", JSVal.num 1), ("b", JSVal.num 2)])
          (fun _ => JSVal.obj [("b", JSVal.num 5)])) =
        (fun _ => JSVal.obj [("b", JSVal.num 5)])
          ((omitProp "id").get (.obj [("id", JSVal.num 1), ("b", JSVal.num 2)]))) ∧
    (onChange (fun n _ => n)).put (.num 7) (fun _ => (onChange (fun n _ => n)).get (.num 7)) =
      .num 7 ∧
    (([("a", JSVal.num 1)].map (Prod.fst (β := JSVal))).Nodup ∧
      jsEqTop (partLens.put (.obj [("a", JSVal.num 1)])
          (fun _ => partLens.get (.obj [("a", JSVal.num 1)])))
        (.obj [("a", JSVal.num 1)])) := by
  refine ⟨⟨by decide, ?_⟩, ⟨rfl, ?_⟩, ⟨rfl, rfl, ?_⟩, ?_, ⟨by decide, ?_⟩⟩
  · exact (c1_lens_laws_amended.1 [JSVal.num 1, JSVal.num 2] 0 id id id (by decide)).1
  · exact (c1_lens_laws_amended.2.1 [("a", JSVal.num 1)] "a" id id id).1 rfl
  · exact ((c1_lens_laws_amended.2.2.1 [("id", JSVal.num 1), ("b", JSVal.num 2)] "id"
      (fun _ => JSVal.obj [("b", JSVal.num 5)]) id id).2.1 [("b", JSVal.num 5)] rfl rfl)
  · exact (c1_lens_laws_amended.2.2.2.1 (fun n _ => n) (fun _ _ => rfl) (.num 7) id id id).1
  · exact (c1_lens_laws_amended.2.2.2.2 [("a", JSVal.num 1)] id).1 (by decide)

/-! The identity cache of `valueLinkCreator` (section "Memoized creation"
of the source). JS reference identity is modelled by allocation ids; the
scalar interning of `scalarToObj` makes two equal primitives share a cache
key, so a `weakKey` is either a scalar compared by value or an object id. -/

/-- A primitive JS scalar as classified by `isScalar` (null, or neither an
object nor a function). -/
inductive ScalarV : Type where
  | undefined : ScalarV
  | null : ScalarV
  | bool : Bool → ScalarV
  | num : Int → ScalarV
  | str : String → ScalarV
deriving DecidableEq

/-- A WeakMap key after `weakKey`: an interned scalar (two equal primitives
yield the same wrapper object, hence the same key) or a non-scalar
identified by reference, modelled as an allocation id. -/
inductive WKey : Type where
  | scal : ScalarV → WKey
  | obj : Nat → WKey
deriving DecidableEq

/-- `map.get(key)` on one level of (Weak)Map, modelled as an association
list. -/
def wmGet {V : Type} : List (WKey × V) → WKey → Option V
  | [], _ => none
  | (k, v) :: c, j => if k = j then some v else wmGet c j

/-- `map.set(key, value)`: replace an existing binding, else append. -/
def wmSet {V : Type} (c : List (WKey × V)) (k : WKey) (v : V) : List (WKey × V) :=
  if (wmGet c k).isSome then c.map (fun p => if p.1 = k then (k, v) else p) else c ++ [(k, v)]

/-- `twoKeyWeakCache` lookup: the inner map at the first key, then the
second key. -/
def wm2Get {V : Type} (c : List (WKey × List (WKey × V))) (k1 k2 : WKey) : Option V :=
  match wmGet c k1 with
  | some inner => wmGet inner k2
  | none => none

/-- `twoKeyWeakCache` store: write through to the inner map at the first
key, creating it when missing. -/
def wm2Set {V : Type} (c : List (WKey × List (WKey × V))) (k1 k2 : WKey) (v : V) :
    List (WKey × List (WKey × V)) :=
  wmSet c k1 (wmSet ((wmGet c k1).getD []) k2 v)

/-- `threeKeyWeakCache` lookup: the inner two-key cache at the first key. -/
def wm3Get {V : Type} (c : List (WKey × List (WKey × List (WKey × V)))) (k1 k2 k3 : WKey) :
    Option V :=
  match wmGet c k1 with
  | some inner => wm2Get inner k2 k3
  | none => none

/-- `threeKeyWeakCache` store through the inner two-key cache at the first
key, creating it when missing. -/
def wm3Set {V : Type} (c : List (WKey × List (WKey × List (WKey × V)))) (k1 k2 k3 : WKey)
    (v : V) : List (WKey × List (WKey × List (WKey × V))) :=
  wmSet c k1 (wm2Set ((wmGet c k1).getD []) k2 k3 v)

/-- The mutable tables owned by one `valueLinkCreator` call — the creator's
two-key cache `(value, updater) -> link`, the `applyCache` three-key cache
`(value, updater, lens) -> link`, and the strong intern table of
`memoize(recordProp)` mapping a property name to its lens object — plus a
fresh-allocation counter standing for the JS object identity of newly
created links and lens objects. -/
structure LCState : Type where
  created : List (WKey × List (WKey × Nat))
  applied : List (WKey × List (WKey × List (WKey × Nat)))
  lensMemo : List (WKey × Nat)
  next : Nat
deriving DecidableEq

/-- The cache-enabled constructor returned by `valueLinkCreator`:
`cache(value, updater, () => createValueLink(value, updater, name, applyCache))`
— a hit returns the cached link unchanged, a miss allocates a fresh link
and stores it under the (value, updater) pair. -/
def createLinkC (v u : WKey) (s : LCState) : Nat × LCState :=
  match wm2Get s.created v u with
  | some id => (id, s)
  | none => (s.next, { s with created := wm2Set s.created v u s.next, next := s.next + 1 })

/-- `memoize(recordProp)`: the lens object for a property name, interned by
the scalar name, so the same name always yields the identical lens object. -/
def recordPropM (k : String) (s : LCState) : WKey × LCState :=
  match wmGet s.lensMemo (.scal (.str k)) with
  | some id => (.obj id, s)
  | none => (.obj s.next,
      { s with lensMemo := wmSet s.lensMemo (.scal (.str k)) s.next, next := s.next + 1 })

/-- The cache-consulting `apply` of a cache-constructed link:
`cache(value, update, lens, () => createValueLink(...))`. -/
def applyC (v u l : WKey) (s : LCState) : Nat × LCState :=
  match wm3Get s.applied v u l with
  | some id => (id, s)
  | none => (s.next, { s with applied := wm3Set s.applied v u l s.next, next := s.next + 1 })

/-- `prop(name) = apply(recordProp(name), name)` on a cache-constructed
link. -/
def propC (v u : WKey) (k : String) (s : LCState) : Nat × LCState :=
  applyC v u (recordPropM k s).1 (recordPropM k s).2

/-- `props(keys)`: build, in order, the link of each key via
`apply(recordProp(name))`. -/
def propsC (v u : WKey) : List String → LCState → List (String × Nat) × LCState
  | [], s => ([], s)
  | k :: ks, s =>
    ((k, (propC v u k s).1) :: (propsC v u ks (propC v u k s).2).1,
      (propsC v u ks (propC v u k s).2).2)

theorem wmGet_append {V : Type} (a b : List (WKey × V)) (j : WKey) :
    wmGet (a ++ b) j = (wmGet a j).or (wmGet b j) := by
  induction a with
  | nil => simp [wmGet]
  | cons p a ih =>
    obtain ⟨k, v⟩ := p
    by_cases h : k = j <;> simp [wmGet, h, ih]

theorem wmGet_mapset {V : Type} (c : List (WKey × V)) (k j : WKey) (v : V) :
    wmGet (c.map (fun p => if p.1 = k then (k, v) else p)) j =
      if j = k then (wmGet c k).map (fun _ => v) else wmGet c j := by
  induction c with
  | nil => simp [wmGet]
  | cons p c ih =>
    obtain ⟨k1, v1⟩ := p
    rw [List.map_cons]
    by_cases hk : k1 = k
    · subst hk
      have hhead : (if ((k1, v1) : WKey × V).1 = k1 then (k1, v) else (k1, v1)) = (k1, v) := by
        simp
      rw [hhead]
      by_cases hj : k1 = j
      · subst hj
        simp [wmGet]
      · simp [wmGet, hj, ih, Ne.symm hj]
    · have hhead : (if ((k1, v1) : WKey × V).1 = k then (k, v) else (k1, v1)) = (k1, v1) := by
        simp [hk]
      rw [hhead]
      by_cases hj : k1 = j
      · subst hj
        have hjk : k1 ≠ k := hk
        simp [wmGet, Ne.symm hjk, hjk]
      · simp [wmGet, hj, hk, ih]

theorem wmGet_wmSet {V : Type} (c : List (WKey × V)) (k j : WKey) (v : V) :
    wmGet (wmSet c k v) j = if j = k then some v else wmGet c j := by
  unfold wmSet
  by_cases h : (wmGet c k).isSome
  · obtain ⟨w, hw⟩ := Option.isSome_iff_exists.1 h
    simp [h, wmGet_mapset, hw]
  · have hn : wmGet c k = none := by
      cases hl : wmGet c k with
      | none => rfl
      | some w => rw [hl] at h; simp at h
    simp only [h, if_false, Bool.false_eq_true, wmGet_append]
    by_cases hj : j = k
    · subst hj
      simp [hn, wmGet]
    · cases hl : wmGet c j <;> simp [wmGet, hj, Ne.symm hj]

theorem wm2Get_wm2Set {V : Type} (c : List (WKey × List (WKey × V))) (k1 k2 j1 j2 : WKey)
    (v : V) :
    wm2Get (wm2Set c k1 k2 v) j1 j2 =
      if j1 = k1 ∧ j2 = k2 then some v else wm2Get c j1 j2 := by
  unfold wm2Set wm2Get
  rw [wmGet_wmSet]
  by_cases h1 : j1 = k1
  · simp only [h1, if_true, true_and]
    rw [wmGet_wmSet]
    by_cases h2 : j2 = k2
    · simp [h2]
    · simp only [h2, if_false]
      cases hg : wmGet c k1 with
      | some inner => simp [hg]
      | none => simp [hg, wmGet]
  · simp [h1]

theorem wm3Get_wm3Set {V : Type} (c : List (WKey × List (WKey × List (WKey × V))))
    (k1 k2 k3 j1 j2 j3 : WKey) (v : V) :
    wm3Get (wm3Set c k1 k2 k3 v) j1 j2 j3 =
      if j1 = k1 ∧ j2 = k2 ∧ j3 = k3 then some v else wm3Get c j1 j2 j3 := by
  unfold wm3Set wm3Get
  rw [wmGet_wmSet]
  by_cases h1 : j1 = k1
  · simp only [h1, if_true, true_and]
    rw [wm2Get_wm2Set]
    by_cases h2 : j2 = k2 ∧ j3 = k3
    · simp [h2]
    · simp only [h2, if_false]
      cases hg : wmGet c k1 with
      | some inner => simp [hg]
      | none => simp [hg, wm2Get, wmGet]
  · simp [h1]

/-- An entry of the apply cache that a `prop(k)` derivation will hit: the
lens memo knows the lens object of `k` and the apply cache maps the triple
(value, updater, lens) to the link id. -/
def PropStable (s : LCState) (v u : WKey) (k : String) (id : Nat) : Prop :=
  ∃ lid, wmGet s.lensMemo (.scal (.str k)) = some lid ∧
    wm3Get s.applied v u (.obj lid) = some id

theorem propC_stable (v u : WKey) (k : String) (s : LCState) :
    PropStable (propC v u k s).2 v u k (propC v u k s).1 := by
  unfold propC recordPropM
  cases hm : wmGet s.lensMemo (.scal (.str k)) with
  | some lid =>
    simp only
    unfold applyC
    cases ha : wm3Get s.applied v u (.obj lid) with
    | some id => exact ⟨lid, hm, ha⟩
    | none =>
      refine ⟨lid, hm, ?_⟩
      simp [wm3Get_wm3Set]
  | none =>
    simp only
    unfold applyC
    cases ha : wm3Get s.applied v u (.obj s.next) with
    | some id =>
      exact ⟨s.next, by simp [wmGet_wmSet], ha⟩
    | none =>
      refine ⟨s.next, by simp [wmGet_wmSet], ?_⟩
      simp [wm3Get_wm3Set]

theorem propC_of_stable (v u : WKey) (k : String) (s : LCState) (id : Nat)
    (h : PropStable s v u k id) : propC v u k s = (id, s) := by
  obtain ⟨lid, hm, ha⟩ := h
  unfold propC recordPropM
  rw [hm]
  unfold applyC
  simp only
  rw [ha]

theorem propC_preserves (v u v' u' : WKey) (k k' : String) (s : LCState) (id : Nat)
    (h : PropStable s v u k id) : PropStable (propC v' u' k' s).2 v u k id := by
  obtain ⟨lid, hm, ha⟩ := h
  unfold propC recordPropM
  cases hm' : wmGet s.lensMemo (.scal (.str k')) with
  | some lid' =>
    simp only
    unfold applyC
    cases ha' : wm3Get s.applied v' u' (.obj lid') with
    | some id' => exact ⟨lid, hm, ha⟩
    | none =>
      refine ⟨lid, hm, ?_⟩
      rw [wm3Get_wm3Set]
      split
      · next heq =>
        rw [heq.1, heq.2.1, heq.2.2] at ha
        rw [ha] at ha'
        cases ha'
      · exact ha
  | none =>
    simp only
    have hkk : (WKey.scal (.str k)) ≠ (WKey.scal (.str k')) := by
      intro heq
      cases heq
      rw [hm] at hm'
      cases hm'
    unfold applyC
    have hm2 : wmGet (wmSet s.lensMemo (.scal (.str k')) s.next) (.scal (.str k)) =
        some lid := by
      rw [wmGet_wmSet]
      simp [hkk, hm]
    cases ha' : wm3Get s.applied v' u' (.obj s.next) with
    | some id' => exact ⟨lid, hm2, ha⟩
    | none =>
      refine ⟨lid, hm2, ?_⟩
      rw [wm3Get_wm3Set]
      split
      · next heq =>
        rw [heq.1, heq.2.1, heq.2.2] at ha
        rw [ha] at ha'
        cases ha'
      · exact ha

theorem propsC_preserves (v u v' u' : WKey) (k : String) (keys : List String) (s : LCState)
    (id : Nat) (h : PropStable s v u k id) :
    PropStable (propsC v' u' keys s).2 v u k id := by
  induction keys generalizing s with
  | nil => exact h
  | cons k' ks ih =>
    exact ih (propC v' u' k' s).2 (propC_preserves v u v' u' k k' s id h)

/-- C2: with the cache-enabled constructor, derivation is referentially
stable — calling `createLink(v, u)` twice on the identical value and
updater returns the identical link (and leaves the caches unchanged);
deriving `prop(k)` twice returns the identical link, because the memoized
`recordProp(k)` returns the identical lens object and the three-key cache
then hits; and a link recorded by `props()` is the link that `prop` of the
same key returns. -/
theorem c2_cache_identity :
    (∀ (v u : WKey) (s : LCState),
      createLinkC v u (createLinkC v u s).2 = ((createLinkC v u s).1, (createLinkC v u s).2)) ∧
    (∀ (v u : WKey) (k : String) (s : LCState),
      propC v u k (propC v u k s).2 = ((propC v u k s).1, (propC v u k s).2)) ∧
    (∀ (v u : WKey) (keys : List String) (s : LCState) (k : String) (id : Nat),
      (k, id) ∈ (propsC v u keys s).1 →
      propC v u k (propsC v u keys s).2 = (id, (propsC v u keys s).2)) := by
  refine ⟨?_, ?_, ?_⟩
  · intro v u s
    unfold createLinkC
    cases h : wm2Get s.created v u with
    | some id => simp [h]
    | none =>
      simp only
      rw [show wm2Get (wm2Set s.created v u s.next) v u = some s.next by
        simp [wm2Get_wm2Set]]
  · intro v u k s
    exact propC_of_stable v u k _ _ (propC_stable v u k s)
  · intro v u keys s k id hmem
    induction keys generalizing s with
    | nil => cases hmem
    | cons k' ks ih =>
      simp only [propsC, List.mem_cons] at hmem
      rcases hmem with hhead | htail
      · cases hhead
        exact propC_of_stable v u k _ _
          (propsC_preserves v u v u k ks (propC v u k s).2 _
            (propC_stable v u k s))
      · exact ih (propC v u k' s).2 htail

/-- C2 witness: concrete run from the empty cache state — the second
`createLink` hit, the second `prop("x")` hit, and `props(["x"]).x` agreeing
with a later `prop("x")`. -/
theorem c2_witness :
    createLinkC (.obj 100) (.obj 101)
        (createLinkC (.obj 100) (.obj 101) (LCState.mk [] [] [] 0)).2 =
      ((createLinkC (.obj 100) (.obj 101) (LCState.mk [] [] [] 0)).1,
        (createLinkC (.obj 100) (.obj 101) (LCState.mk [] [] [] 0)).2) ∧
    propC (.obj 100) (.obj 101) "x"
        (propC (.obj 100) (.obj 101) "x" (LCState.mk [] [] [] 0)).2 =
      ((propC (.obj 100) (.obj 101) "x" (LCState.mk [] [] [] 0)).1,
        (propC (.obj 100) (.obj 101) "x" (LCState.mk [] [] [] 0)).2) ∧
    (("x", 1) ∈ (propsC (.obj 100) (.obj 101) ["x"] (LCState.mk [] [] [] 0)).1 ∧
      propC (.obj 100) (.obj 101) "x"
          (propsC (.obj 100) (.obj 101) ["x"] (LCState.mk [] [] [] 0)).2 =
        (1, (propsC (.obj 100) (.obj 101) ["x"] (LCState.mk [] [] [] 0)).2)) :=
  ⟨c2_cache_identity.1 (.obj 100) (.obj 101) (LCState.mk [] [] [] 0),
   c2_cache_identity.2.1 (.obj 100) (.obj 101) "x" (LCState.mk [] [] [] 0),
   by decide,
   c2_cache_identity.2.2 (.obj 100) (.obj 101) ["x"] (LCState.mk [] [] [] 0) "x" 1
     (by decide)⟩

end Valynx
